import Mathlib

/-!
# Verification of the Nested Structure Editor & Differ

Shallow embedding of the recursive tree edit-and-diff engine of the
builder-model-manager repository:

* `updateDataAtPath` — the Path-Scoped Mutator from
  `src/components/ContentDetail.tsx` (lines 171–195; the identical copy in the
  second ContentDetail variant has it at lines 181–200),
* `compareObjects` — the Structural Differ from
  `src/components/ContentComparison.tsx` (lines 37–77),
* `rootRows` / `normalizeFieldOrder` — the root-level Tree Walker row order
  from the second ContentDetail variant and `src/utils/fieldOrder.ts`.

Data values are modelled by `Json`, the closed variant of the spec's data
model (§3): null, boolean, number, string, sequence, mapping — plus `undef`
for JavaScript's `undefined`, which the code produces via missing-key member
access and sparse-array holes.  Mappings are ordered association lists,
modelling a JavaScript object's own enumerable property order.  Numbers are
modelled as integers.

JavaScript semantics is embedded where the code exercises it:

* `{ ...data, [k]: v }` spreads an object's entries (key replaced in place if
  present, appended otherwise); spreading a string yields its indexed
  character entries; spreading `null`/`undefined`/numbers/booleans yields no
  entries.  (Spreading an array never happens: the `Array.isArray` branch
  catches arrays first.)
* `data[k]` on an object is own-property lookup, `undefined` when absent; on
  a string it yields the character at a canonical index (the string's
  `length` property and inherited methods are not modelled); on numbers and
  booleans it yields `undefined`; on `null`/`undefined` it throws a
  `TypeError`.
* `arr[i] = v` with `i ≥ arr.length` extends the array with `undefined`
  holes; with a negative or `NaN` index JavaScript stores a non-element
  property, invisible to the sequence's elements, modelled as leaving the
  sequence unchanged.
-/

inductive Json where
  | null
  | undef
  | bool (b : Bool)
  | num (n : Int)
  | str (s : String)
  | arr (elems : List Json)
  | obj (fields : List (String × Json))

namespace Json

/-- Own-property lookup in an ordered field list; `undef` when the key is
absent (JavaScript `data[k]` for a plain object). -/
def lookupField : List (String × Json) → String → Json
  | [], _ => Json.undef
  | (k', v) :: rest, k => if k' = k then v else lookupField rest k

/-- `k in data` for a plain object: own-key membership. -/
def containsKey : List (String × Json) → String → Bool
  | [], _ => false
  | (k', _) :: rest, k => k' = k || containsKey rest k

/-- The segment transformation `s.replace(/[\[\]]/g, '')` of the mutator:
drop every square-bracket character. -/
def stripBrackets (s : String) : String :=
  ⟨s.data.filter fun c => !(c == '[' || c == ']')⟩

/-- Leading decimal digits of a character list. -/
def takeDigits : List Char → List Char
  | [] => []
  | c :: cs => if c.isDigit then c :: takeDigits cs else []

/-- Numeric value of a digit list. -/
def digitsToNat (cs : List Char) : Nat :=
  cs.foldl (fun acc c => acc * 10 + (c.toNat - 48)) 0

/-- JavaScript `parseInt(s, 10)`: skip leading whitespace, optional sign,
longest run of decimal digits; `none` models `NaN` (no digit found). -/
def parseIntJS (s : String) : Option Int :=
  let cs := s.data.dropWhile fun c => c == ' ' || c == '\t' || c == '\n' || c == '\r'
  match cs with
  | '-' :: rest =>
      let ds := takeDigits rest
      if ds.isEmpty then none else some (-(digitsToNat ds : Int))
  | '+' :: rest =>
      let ds := takeDigits rest
      if ds.isEmpty then none else some (digitsToNat ds : Int)
  | _ =>
      let ds := takeDigits cs
      if ds.isEmpty then none else some (digitsToNat ds : Int)

/-- Index a path segment denotes for a sequence:
`parseInt(segment.replace(/[\[\]]/g, ''), 10)`. -/
def parseSeg (s : String) : Option Int :=
  parseIntJS (stripBrackets s)

/-- JavaScript `arr[i]` for a (possibly `NaN`/negative/out-of-range) numeric
index: the element when `0 ≤ i < length`, `undefined` otherwise. -/
def jsArrayGet (xs : List Json) : Option Int → Json
  | none => Json.undef
  | some n => if n < 0 then .undef else xs.getD n.toNat Json.undef

/-- JavaScript `arr[i] = v` on a fresh copy: in-range replaces the element;
`i ≥ length` extends the array with `undefined` holes; a `NaN` or negative
index stores a non-element property, leaving the sequence's elements
unchanged. -/
def jsArraySet (xs : List Json) (i : Option Int) (v : Json) : List Json :=
  match i with
  | none => xs
  | some n =>
      if n < 0 then xs
      else if n.toNat < xs.length then xs.set n.toNat v
      else xs ++ List.replicate (n.toNat - xs.length) .undef ++ [v]

/-- Indexed character entries of a string, as produced by `{ ...someString }`
(own enumerable properties `"0"`, `"1"`, …). -/
def charEntries (s : String) : List (String × Json) :=
  s.data.enum.map fun ic => (toString ic.1, Json.str ⟨[ic.2]⟩)

/-- Entries contributed by `{ ...data }` when `data` is not an array: an
object's fields, a string's indexed characters, nothing for `null`,
`undefined`, numbers and booleans. -/
def spreadEntries : Json → List (String × Json)
  | .obj fs => fs
  | .str s => charEntries s
  | _ => []

/-- `{ ...fields, [k]: v }`: replace the value at an existing key in place,
append the key otherwise. -/
def objUpsert (fs : List (String × Json)) (k : String) (v : Json) :
    List (String × Json) :=
  if containsKey fs k then fs.map fun p => if p.1 = k then (p.1, v) else p
  else fs ++ [(k, v)]

/-- Member access `data[k]` of the mutator's non-array branch, for values on
which it is defined (`null`/`undefined` throw and are handled before this is
consulted). -/
def jsMember : Json → String → Json
  | .obj fs, k => lookupField fs k
  | .str s, k => lookupField (charEntries s) k
  | _, _ => Json.undef

end Json

namespace Json

/-- The error value of the embedding: the `TypeError` JavaScript throws on
member access through `null`/`undefined` (and on `undefined.replace` when an
empty path reaches the array branch).  The source defines no error type of
its own — in particular no `InvalidPathError` exists anywhere in it. -/
inductive JsErr where
  | typeError
deriving DecidableEq, Repr

/-- `sizeOf` bound for own-property lookup, used for termination. -/
theorem sizeOf_lookupField_lt (fs : List (String × Json)) (k : String) :
    sizeOf (lookupField fs k) < 1 + sizeOf fs := by
  induction fs with
  | nil => simp [lookupField]
  | cons p rest ih =>
      obtain ⟨k', v⟩ := p
      simp only [lookupField]
      split
      · simp only [List.cons.sizeOf_spec, Prod.mk.sizeOf_spec]
        omega
      · refine lt_of_lt_of_le ih ?_
        simp only [List.cons.sizeOf_spec]
        omega

/-- `updateDataAtPath(data, [], v)`: destructuring the empty path makes
`current` the value `undefined`, so the property key is the string
`"undefined"`.  On an array, `current.replace` throws at once; on `null` or
`undefined`, the member access `data[current]` throws; on an object the code
recurses into `data["undefined"]` with the still-empty path; on any other
scalar the member access yields `undefined` and the recursive call throws one
step later.  Every branch therefore ends in a `TypeError`. -/
def updateEmptyGo : Json → Except JsErr Json
  | .obj fs => updateEmptyGo (lookupField fs "undefined")
  | _ => .error .typeError
termination_by d => sizeOf d
decreasing_by
  simpa using sizeOf_lookupField_lt fs "undefined"

theorem updateEmptyGo_eq (d : Json) : updateEmptyGo d = .error .typeError := by
  induction d using updateEmptyGo.induct with
  | case1 fs ih => rw [updateEmptyGo]; exact ih
  | case2 d h => rw [updateEmptyGo.eq_def]; cases d <;> simp_all

/-- The Path-Scoped Mutator `updateDataAtPath` of
`src/components/ContentDetail.tsx` (lines 171–195).

```ts
const updateDataAtPath = (data: any, path: string[], newValue: any): any => {
  if (path.length === 1) {
    if (Array.isArray(data)) {
      const index = parseInt(path[0].replace(/[\[\]]/g, ''), 10);
      const newArray = [...data];
      newArray[index] = newValue;
      return newArray;
    }
    return { ...data, [path[0]]: newValue };
  }
  const [current, ...rest] = path;
  if (Array.isArray(data)) {
    const index = parseInt(current.replace(/[\[\]]/g, ''), 10);
    const newArray = [...data];
    newArray[index] = updateDataAtPath(data[index], rest, newValue);
    return newArray;
  }
  return { ...data, [current]: updateDataAtPath(data[current], rest, newValue) };
};
```

`Except.error .typeError` models the TypeErrors the JavaScript code throws:
in the descending branch, `data[current]` throws when `data` is `null` or
`undefined`; the empty path always throws (`updateEmptyGo`). -/
def updateDataAtPath : Json → List String → Json → Except JsErr Json
  | data, [], _ => updateEmptyGo data
  | data, [s], newValue =>
      match data with
      | .arr elems => .ok (.arr (jsArraySet elems (parseSeg s) newValue))
      | d => .ok (.obj (objUpsert (spreadEntries d) s newValue))
  | data, c :: rest, newValue =>
      match data with
      | .arr elems =>
          match updateDataAtPath (jsArrayGet elems (parseSeg c)) rest newValue with
          | .ok r => .ok (.arr (jsArraySet elems (parseSeg c) r))
          | .error e => .error e
      | .null => .error .typeError
      | .undef => .error .typeError
      | d =>
          match updateDataAtPath (jsMember d c) rest newValue with
          | .ok r => .ok (.obj (objUpsert (spreadEntries d) c r))
          | .error e => .error e

/-- Modelled from the spec: the `get` lookup companion of the Path-Scoped
Mutator (§4.1 path addressing, §8 property 3 — no `get` function exists in
the source).  Descend a mapping by its key and a sequence by the segment's
parsed index; anything addressed below a scalar, `null`, or a missing key is
absent (`undef`). -/
def getAtPath : Json → List String → Json
  | d, [] => d
  | d, s :: rest =>
      match d with
      | .obj fs => getAtPath (lookupField fs s) rest
      | .arr xs => getAtPath (jsArrayGet xs (parseSeg s)) rest
      | _ => Json.undef

example : updateDataAtPath
    (.obj [("a", .obj [("b", .obj [("c", .num 1), ("d", .num 2)])])])
    ["a", "b", "c"] (.num 99)
    = .ok (.obj [("a", .obj [("b", .obj [("c", .num 99), ("d", .num 2)])])]) := rfl

example : updateDataAtPath (.obj [("a", .num 5)]) ["a", "b"] (.num 7)
    = .ok (.obj [("a", .obj [("b", .num 7)])]) := rfl

example : updateDataAtPath (.obj [("a", .null)]) ["a", "b", "c"] (.num 1)
    = .error .typeError := rfl

example : updateDataAtPath (.arr [.num 1, .num 2]) ["5"] (.num 9)
    = .ok (.arr [.num 1, .num 2, .undef, .undef, .undef, .num 9]) := rfl

example : updateDataAtPath (.obj [("a", .str "xy")]) ["a", "b"] (.num 7)
    = .ok (.obj [("a", .obj [("0", .str "x"), ("1", .str "y"), ("b", .num 7)])]) := rfl

example : getAtPath (.obj [("a", .arr [.num 4, .num 5])]) ["a", "[1]"] = .num 5 := rfl

end Json

namespace Json

/-- JSON string escaping (quote and backslash; control characters do not
occur in the comparisons modelled here). -/
def escapeJsonChar (c : Char) : List Char :=
  if c = '"' then ['\\', '"'] else if c = '\\' then ['\\', '\\'] else [c]

/-- A JSON string literal: quoted and escaped. -/
def quoteJson (s : String) : String :=
  ⟨'"' :: (s.data.flatMap escapeJsonChar ++ ['"'])⟩

mutual

/-- `JSON.stringify`: `none` models the `undefined` result for an
`undefined` argument; object fields whose value serializes to `undefined`
are dropped; `undefined` array elements render as `null`. -/
def jsonStringify : Json → Option String
  | .null => some "null"
  | .undef => none
  | .bool b => some (cond b "true" "false")
  | .num n => some (toString n)
  | .str s => some (quoteJson s)
  | .arr xs => some ("[" ++ String.intercalate "," (stringifyElemParts xs) ++ "]")
  | .obj fs => some ("\x7b" ++ String.intercalate "," (stringifyFieldParts fs) ++ "\x7d")

/-- Serialized array elements (`undefined` renders as `null`). -/
def stringifyElemParts : List Json → List String
  | [] => []
  | x :: xs =>
      (match jsonStringify x with
       | some s => s
       | none => "null") :: stringifyElemParts xs

/-- Serialized object entries; entries serializing to `undefined` are
dropped. -/
def stringifyFieldParts : List (String × Json) → List String
  | [] => []
  | (k, v) :: rest =>
      match jsonStringify v with
      | some s => (quoteJson k ++ ":" ++ s) :: stringifyFieldParts rest
      | none => stringifyFieldParts rest

end

example : jsonStringify (.obj [("a", .arr [.num 1, .undef]), ("b", .undef)])
    = some "\x7b\"a\":[1,null]\x7d" := rfl

/-- JavaScript truthiness. -/
def truthy : Json → Bool
  | .null => false
  | .undef => false
  | .bool b => b
  | .num n => n != 0
  | .str s => !s.isEmpty
  | .arr _ => true
  | .obj _ => true

/-- `left && typeof left === 'object' ? Object.keys(left) : []`: own
enumerable keys of an object or array, `[]` for everything else. -/
def jsObjectKeys : Json → List String
  | .obj fs => fs.map Prod.fst
  | .arr xs => (List.range xs.length).map toString
  | _ => []

/-- `key in data` for the values the differ probes (own-key membership; the
differ only evaluates this on objects and arrays). -/
def jsHasOwnKey : Json → String → Bool
  | .obj fs, k => containsKey fs k
  | .arr xs, k => (List.range xs.length).any fun i => toString i = k
  | _, _ => false

/-- Optional-chained member access `data?.[key]`. -/
def jsGetKey : Json → String → Json
  | .obj fs, k => lookupField fs k
  | .arr xs, k =>
      match (List.range xs.length).find? (fun i => toString i = k) with
      | some i => xs.getD i Json.undef
      | none => Json.undef
  | .str s, k => lookupField (charEntries s) k
  | _, _ => Json.undef

/-- Iteration order of `new Set(list)`: first occurrences, in order. -/
def dedupKeysGo : List String → List String → List String
  | _, [] => []
  | seen, k :: rest =>
      if seen.contains k then dedupKeysGo seen rest
      else k :: dedupKeysGo (k :: seen) rest

/-- `new Set([...leftKeys, ...rightKeys])` in iteration order: the union of
the two key lists, keeping first occurrences. -/
def unionKeys (l r : Json) : List String :=
  dedupKeysGo [] (jsObjectKeys l ++ jsObjectKeys r)

/-- `path ? path + '.' + key : key`. -/
def joinPath (p k : String) : String := if p = "" then k else p ++ "." ++ k

inductive DiffType where
  | equal
  | modified
  | added
  | removed
deriving DecidableEq, Repr

structure DiffResult where
  path : String
  leftValue : Json
  rightValue : Json
  type : DiffType

/-- `sizeOf` bound for `List.getD`, used for termination. -/
theorem sizeOf_getD_lt (xs : List Json) (i : Nat) :
    sizeOf (xs.getD i Json.undef) < 1 + sizeOf xs := by
  induction xs generalizing i with
  | nil => simp [List.getD]
  | cons x rest ih =>
      cases i with
      | zero => simp only [List.getD_cons_zero, List.cons.sizeOf_spec]; omega
      | succ j =>
          simp only [List.getD_cons_succ]
          refine lt_of_lt_of_le (ih j) ?_
          simp only [List.cons.sizeOf_spec]
          omega

/-- Every value stored in `charEntries` is a one-character string, so member
access on a string never yields an object. -/
theorem lookupField_charEntries_ne_obj (s : String) (k : String)
    (lf : List (String × Json)) : lookupField (charEntries s) k ≠ .obj lf := by
  have h : ∀ entries : List (Nat × Char),
      lookupField (entries.map fun ic => (toString ic.1, Json.str ⟨[ic.2]⟩)) k
        ≠ .obj lf := by
    intro entries
    induction entries with
    | nil => simp [lookupField]
    | cons e rest ih =>
        simp only [List.map_cons, lookupField]
        split
        · simp
        · exact ih
  exact h s.data.enum

/-- A member access yielding an object yields a strictly smaller value
(termination of the differ's recursion). -/
theorem sizeOf_jsGetKey_lt_of_obj (l : Json) (k : String)
    (lf : List (String × Json)) (h : jsGetKey l k = .obj lf) :
    sizeOf (Json.obj lf) < sizeOf l := by
  cases l with
  | obj fs =>
      have := sizeOf_lookupField_lt fs k
      rw [jsGetKey] at h
      rw [← h]
      simpa using this
  | arr xs =>
      rw [jsGetKey] at h
      rcases hf : (List.range xs.length).find? (fun i => toString i = k) with _ | i
      · rw [hf] at h; cases h
      · rw [hf] at h
        have := sizeOf_getD_lt xs i
        rw [← h]
        simpa using this
  | str s => exact absurd h (lookupField_charEntries_ne_obj s k lf)
  | null => cases h
  | undef => cases h
  | bool b => cases h
  | num n => cases h

mutual

/-- The per-key body of the differ's `allKeys.forEach` callback
(`src/components/ContentComparison.tsx`, lines 43–76): classify the key as
`added`/`removed`, recurse when both values are non-null non-array mappings,
compare serializations for arrays and everything else. -/
def diffKey (l r : Json) (p k : String) : List DiffResult :=
  let currentPath := joinPath p k
  if !(truthy l && jsHasOwnKey l k) && (truthy r && jsHasOwnKey r k) then
    [⟨currentPath, .undef, jsGetKey r k, .added⟩]
  else if (truthy l && jsHasOwnKey l k) && !(truthy r && jsHasOwnKey r k) then
    [⟨currentPath, jsGetKey l k, .undef, .removed⟩]
  else if (truthy l && jsHasOwnKey l k) && (truthy r && jsHasOwnKey r k) then
    match h1 : jsGetKey l k, h2 : jsGetKey r k with
    | .obj lf, .obj rf => compareObjects (.obj lf) (.obj rf) currentPath
    | .arr lx, .arr rx =>
        if jsonStringify (.arr lx) ≠ jsonStringify (.arr rx) then
          [⟨currentPath, .arr lx, .arr rx, .modified⟩]
        else
          [⟨currentPath, .arr lx, .arr rx, .equal⟩]
    | lv, rv =>
        if jsonStringify lv ≠ jsonStringify rv then
          [⟨currentPath, lv, rv, .modified⟩]
        else
          [⟨currentPath, lv, rv, .equal⟩]
  else
    []
termination_by (sizeOf l, 0, 0)
decreasing_by
  exact Prod.Lex.left _ _ (sizeOf_jsGetKey_lt_of_obj l k lf h1)

/-- The `forEach` loop over the union of keys, in iteration order. -/
def compareKeys (l r : Json) (p : String) : List String → List DiffResult
  | [] => []
  | k :: ks => diffKey l r p k ++ compareKeys l r p ks
termination_by ks => (sizeOf l, 0, ks.length + 1)
decreasing_by
  · exact Prod.Lex.right _ (Prod.Lex.right _ (by omega))
  · exact Prod.Lex.right _ (Prod.Lex.right _ (by simp [List.length_cons]))

/-- The Structural Differ `compareObjects` of
`src/components/ContentComparison.tsx` (lines 37–77). -/
def compareObjects (l r : Json) (p : String) : List DiffResult :=
  compareKeys l r p (unionKeys l r)
termination_by (sizeOf l, 1, 0)
decreasing_by
  exact Prod.Lex.right _ (Prod.Lex.left _ _ (by omega))

end

/-- `diff(left, right)`: the top-level invocation
`compareObjects(leftContent.data, rightContent.data)` with the default empty
path. -/
def jsonDiff (l r : Json) : List DiffResult :=
  compareObjects l r ""

end Json

namespace Json

/-- A schema field definition (`BuilderField` of `src/types/builder.ts`):
name, type, required flag, optional nested sub-fields. -/
inductive BuilderField where
  | mk (name : String) (ftype : String) (required : Bool)
       (subFields : List BuilderField)

/-- The field's name. -/
def BuilderField.name : BuilderField → String
  | .mk n _ _ _ => n

/-- Root-level row emission of the second ContentDetail variant
(lines 392–419): first every model field, in model order, skipped when its
name is not a key of the data (`if (!(key in content.data)) return null`),
rendered with `content.data[key]`; then every data entry whose key no model
field names, in data order. -/
def rootRows (fields : List BuilderField) (data : List (String × Json)) :
    List (String × Json) :=
  (fields.filterMap fun f =>
    if containsKey data f.name then some (f.name, lookupField data f.name)
    else none)
  ++ data.filter fun kv => !(fields.any fun f => f.name = kv.1)

/-- `normalizeFieldOrder` of `src/utils/fieldOrder.ts` (lines 11–33): a new
mapping holding first the model's fields present in the data, in model
order, then the data's remaining entries, in data order.  (Insertion into a
fresh JavaScript object is modelled by the ordered list being built.) -/
def normalizeFieldOrder (data : List (String × Json))
    (fields : List BuilderField) : List (String × Json) :=
  (fields.filterMap fun f =>
    if containsKey data f.name then some (f.name, lookupField data f.name)
    else none)
  ++ data.filter fun kv => !(fields.any fun f => f.name = kv.1)

end Json

namespace Json

theorem lookupField_append (xs ys : List (String × Json)) (k : String) :
    lookupField (xs ++ ys) k
      = if containsKey xs k then lookupField xs k else lookupField ys k := by
  induction xs with
  | nil => simp [lookupField, containsKey]
  | cons p rest ih =>
      obtain ⟨k', v⟩ := p
      by_cases h : k' = k
      · simp [lookupField, containsKey, h]
      · simp [lookupField, containsKey, h, ih]

theorem lookupField_of_not_contains (fs : List (String × Json)) (k : String)
    (hc : containsKey fs k = false) : lookupField fs k = .undef := by
  induction fs with
  | nil => rfl
  | cons p rest ih =>
      obtain ⟨k', v'⟩ := p
      by_cases h : k' = k
      · simp [containsKey, h] at hc
      · have hc' : containsKey rest k = false := by
          simpa [containsKey, h] using hc
        simp [lookupField, h, ih hc']

theorem lookupField_replace_self (fs : List (String × Json)) (k : String)
    (v : Json) (hc : containsKey fs k = true) :
    lookupField (fs.map fun p => if p.1 = k then (p.1, v) else p) k = v := by
  induction fs with
  | nil => simp [containsKey] at hc
  | cons p rest ih =>
      obtain ⟨k', v'⟩ := p
      simp only [List.map_cons]
      by_cases h : k' = k
      · subst h
        rw [if_pos (show ((k', v') : String × Json).1 = k' from rfl)]
        simp [lookupField]
      · rw [if_neg (show ¬ ((k', v') : String × Json).1 = k from h)]
        have hc' : containsKey rest k = true := by
          simpa [containsKey, h] using hc
        simp [lookupField, h, ih hc']

theorem lookupField_replace_ne (fs : List (String × Json)) (k k2 : String)
    (v : Json) (hne : k2 ≠ k) :
    lookupField (fs.map fun p => if p.1 = k then (p.1, v) else p) k2
      = lookupField fs k2 := by
  induction fs with
  | nil => rfl
  | cons p rest ih =>
      obtain ⟨k', v'⟩ := p
      simp only [List.map_cons]
      by_cases h : k' = k
      · subst h
        rw [if_pos (show ((k', v') : String × Json).1 = k' from rfl)]
        simp [lookupField, Ne.symm hne, ih]
      · rw [if_neg (show ¬ ((k', v') : String × Json).1 = k from h)]
        by_cases h2 : k' = k2
        · simp [lookupField, h2]
        · simp [lookupField, h2, ih]

/-- Setting a key and reading it back yields the new value. -/
theorem lookupField_objUpsert_self (fs : List (String × Json)) (k : String)
    (v : Json) : lookupField (objUpsert fs k v) k = v := by
  rw [objUpsert]
  split
  · exact lookupField_replace_self fs k v (by assumption)
  · rename_i hc
    rw [lookupField_append]
    simp only [Bool.not_eq_true] at hc
    simp [hc, lookupField]

/-- Setting a key leaves every other key's value unchanged. -/
theorem lookupField_objUpsert_ne (fs : List (String × Json)) (k k2 : String)
    (v : Json) (hne : k2 ≠ k) :
    lookupField (objUpsert fs k v) k2 = lookupField fs k2 := by
  rw [objUpsert]
  split
  · exact lookupField_replace_ne fs k k2 v hne
  · rw [lookupField_append]
    split
    · rfl
    · rename_i hc2
      simp only [Bool.not_eq_true] at hc2
      rw [lookupField_of_not_contains fs k2 hc2]
      simp [lookupField, Ne.symm hne]

theorem getD_set_self (xs : List Json) (n : Nat) (v : Json)
    (h : n < xs.length) : (xs.set n v).getD n .undef = v := by
  induction xs generalizing n with
  | nil => simp at h
  | cons x rest ih =>
      cases n with
      | zero => simp
      | succ m =>
          simp only [List.set_cons_succ, List.getD_cons_succ]
          exact ih m (by simpa using h)

theorem getD_set_ne (xs : List Json) (n m : Nat) (v : Json) (h : m ≠ n) :
    (xs.set n v).getD m .undef = xs.getD m .undef := by
  induction xs generalizing n m with
  | nil => simp
  | cons x rest ih =>
      cases n with
      | zero =>
          cases m with
          | zero => exact absurd rfl h
          | succ j => simp
      | succ i =>
          cases m with
          | zero => simp
          | succ j =>
              simp only [List.set_cons_succ, List.getD_cons_succ]
              exact ih i j (fun hji => h (by omega))

theorem getD_extend_self (xs : List Json) (k : Nat) (v : Json) :
    (xs ++ List.replicate k Json.undef ++ [v]).getD (xs.length + k) .undef = v := by
  induction xs with
  | nil =>
      induction k with
      | zero => simp
      | succ j ih => simpa using ih
  | cons x rest ih => simpa [Nat.succ_add] using ih

/-- Array write then read at the same non-negative index yields the new
value (both in-range replacement and `i ≥ length` extension). -/
theorem jsArrayGet_jsArraySet_self (xs : List Json) (n : Int) (v : Json)
    (hn : 0 ≤ n) : jsArrayGet (jsArraySet xs (some n) v) (some n) = v := by
  rw [jsArraySet]
  by_cases h : n.toNat < xs.length
  · rw [if_neg (by omega), if_pos h, jsArrayGet, if_neg (by omega)]
    exact getD_set_self xs n.toNat v h
  · rw [if_neg (by omega), if_neg h, jsArrayGet, if_neg (by omega)]
    have hlen : xs.length + (n.toNat - xs.length) = n.toNat := by omega
    have hx := getD_extend_self xs (n.toNat - xs.length) v
    rwa [hlen] at hx

theorem getD_of_len_le (xs : List Json) (m : Nat) (h : xs.length ≤ m) :
    xs.getD m .undef = .undef :=
  List.getD_eq_default xs .undef h

theorem getD_replicate_undef (k m : Nat) :
    (List.replicate k Json.undef).getD m .undef = .undef := by
  induction k generalizing m with
  | zero => rfl
  | succ j ih =>
      cases m with
      | zero => simp
      | succ i => simpa using ih i

/-- Array write at one index leaves every other index's element (or absence)
unchanged. -/
theorem jsArrayGet_jsArraySet_ne (xs : List Json) (i j : Option Int)
    (w : Json) (h : i ≠ j) :
    jsArrayGet (jsArraySet xs i w) j = jsArrayGet xs j := by
  match i with
  | none => rw [jsArraySet]
  | some n =>
      rw [jsArraySet]
      by_cases hn : n < 0
      · rw [if_pos hn]
      · rw [if_neg hn]
        match j with
        | none => rw [jsArrayGet, jsArrayGet]
        | some m =>
            by_cases hm : m < 0
            · rw [jsArrayGet, if_pos hm, jsArrayGet, if_pos hm]
            · rw [jsArrayGet, if_neg hm, jsArrayGet, if_neg hm]
              have hmn : m.toNat ≠ n.toNat := by
                intro he
                exact h (by congr 1; omega)
              by_cases hr : n.toNat < xs.length
              · rw [if_pos hr]
                exact getD_set_ne xs n.toNat m.toNat w hmn
              · rw [if_neg hr]
                by_cases hml : m.toNat < xs.length
                · rw [List.getD_append _ _ _ _ (by simp [List.length_append]; omega),
                    List.getD_append _ _ _ _ hml]
                · rw [getD_of_len_le xs m.toNat (by omega)]
                  rw [List.append_assoc]
                  rw [List.getD_append_right _ _ _ _ (by omega)]
                  rcases Nat.lt_or_ge (m.toNat - xs.length) (n.toNat - xs.length)
                    with hsmall | hbig2
                  · rw [List.getD_append _ _ _ _ (by simpa using hsmall)]
                    exact getD_replicate_undef _ _
                  · rw [List.getD_append_right _ _ _ _ (by simpa using hbig2)]
                    have : m.toNat - xs.length
                        - (List.replicate (n.toNat - xs.length) Json.undef).length
                        ≠ 0 := by
                      simp only [List.length_replicate]
                      omega
                    match hv : m.toNat - xs.length
                        - (List.replicate (n.toNat - xs.length) Json.undef).length with
                    | 0 => exact absurd hv this
                    | Nat.succ i => simp

end Json

namespace Json

/-- The descent conditions under which `updateDataAtPath` returns normally
and round-trips, read off the source: `null`/`undefined` (including a missing
mapping key) must not be met while at least two segments remain — member
access would throw — and every segment consumed at a sequence must parse to a
non-negative index (otherwise the write lands in a non-element property and
is invisible to the sequence). -/
def mutatorSafePath : Json → List String → Bool
  | _, [] => false
  | d, [s] =>
      match d with
      | .arr _ =>
          match parseSeg s with
          | some n => decide (0 ≤ n)
          | none => false
      | _ => true
  | d, s :: s2 :: rest =>
      match d with
      | .null => false
      | .undef => false
      | .arr xs =>
          match parseSeg s with
          | some n =>
              decide (0 ≤ n) && mutatorSafePath (jsArrayGet xs (some n)) (s2 :: rest)
          | none => false
      | d => mutatorSafePath (jsMember d s) (s2 :: rest)

/-- Modelled from the spec: a valid path into a root (§8 property 3) —
every node it traverses is a container that resolves the segment: any key at
a mapping, a parsed in-range non-negative index at a sequence. -/
def validPathInto : Json → List String → Bool
  | _, [] => false
  | d, [s] =>
      match d with
      | .obj _ => true
      | .arr xs =>
          match parseSeg s with
          | some n => decide (0 ≤ n) && decide (n.toNat < xs.length)
          | none => false
      | _ => false
  | d, s :: s2 :: rest =>
      match d with
      | .obj fs => validPathInto (lookupField fs s) (s2 :: rest)
      | .arr xs =>
          match parseSeg s with
          | some n =>
              decide (0 ≤ n) && decide (n.toNat < xs.length)
                && validPathInto (jsArrayGet xs (some n)) (s2 :: rest)
          | none => false
      | _ => false

theorem safe_of_valid : ∀ (p : List String) (root : Json),
    validPathInto root p = true → mutatorSafePath root p = true := by
  intro p
  induction p with
  | nil => intro root h; simp [validPathInto] at h
  | cons s t ih =>
      intro root h
      cases t with
      | nil =>
          cases root <;> simp_all [validPathInto, mutatorSafePath]
          rcases hp : parseSeg s with _ | n <;> simp_all
      | cons s2 rest =>
          cases root with
          | obj fs =>
              simp only [validPathInto] at h
              simpa [mutatorSafePath, jsMember] using ih (lookupField fs s) h
          | arr xs =>
              simp only [validPathInto] at h
              rcases hp : parseSeg s with _ | n <;> rw [hp] at h
              · cases h
              · simp only [Bool.and_eq_true] at h
                simp only [mutatorSafePath, hp, Bool.and_eq_true]
                exact ⟨h.1.1, ih _ h.2⟩
          | null => simp [validPathInto] at h
          | undef => simp [validPathInto] at h
          | bool b => simp [validPathInto] at h
          | num n => simp [validPathInto] at h
          | str s' => simp [validPathInto] at h

/-- On every safe path, the mutator returns normally and the edited path
reads back the new value. -/
theorem roundtrip_of_safe : ∀ (p : List String) (root v : Json),
    mutatorSafePath root p = true →
    ∃ r, updateDataAtPath root p v = .ok r ∧ getAtPath r p = v := by
  intro p
  induction p with
  | nil => intro root v h; simp [mutatorSafePath] at h
  | cons s t ih =>
      intro root v h
      cases t with
      | nil =>
          cases root with
          | arr xs =>
              simp only [mutatorSafePath] at h
              rcases hp : parseSeg s with _ | n <;> rw [hp] at h
              · cases h
              · have hn : 0 ≤ n := by simpa using h
                refine ⟨.arr (jsArraySet xs (some n) v), by simp [updateDataAtPath, hp], ?_⟩
                simp only [getAtPath, hp]
                rw [jsArrayGet_jsArraySet_self xs n v hn]
          | null =>
              exact ⟨.obj (objUpsert [] s v), by simp [updateDataAtPath, spreadEntries],
                by simp [getAtPath, lookupField_objUpsert_self]⟩
          | undef =>
              exact ⟨.obj (objUpsert [] s v), by simp [updateDataAtPath, spreadEntries],
                by simp [getAtPath, lookupField_objUpsert_self]⟩
          | bool b =>
              exact ⟨.obj (objUpsert [] s v), by simp [updateDataAtPath, spreadEntries],
                by simp [getAtPath, lookupField_objUpsert_self]⟩
          | num m =>
              exact ⟨.obj (objUpsert [] s v), by simp [updateDataAtPath, spreadEntries],
                by simp [getAtPath, lookupField_objUpsert_self]⟩
          | str s' =>
              exact ⟨.obj (objUpsert (charEntries s') s v),
                by simp [updateDataAtPath, spreadEntries],
                by simp [getAtPath, lookupField_objUpsert_self]⟩
          | obj fs =>
              exact ⟨.obj (objUpsert fs s v), by simp [updateDataAtPath, spreadEntries],
                by simp [getAtPath, lookupField_objUpsert_self]⟩
      | cons s2 rest =>
          cases root with
          | null => simp [mutatorSafePath] at h
          | undef => simp [mutatorSafePath] at h
          | arr xs =>
              simp only [mutatorSafePath] at h
              rcases hp : parseSeg s with _ | n <;> rw [hp] at h
              · cases h
              · simp only [Bool.and_eq_true, decide_eq_true_eq] at h
                obtain ⟨hn, hrec⟩ := h
                obtain ⟨r', hr', hg'⟩ := ih (jsArrayGet xs (some n)) v hrec
                refine ⟨.arr (jsArraySet xs (some n) r'), ?_, ?_⟩
                · simp [updateDataAtPath, hp, hr']
                · simp only [getAtPath, hp]
                  rw [jsArrayGet_jsArraySet_self xs n r' hn]
                  exact hg'
          | obj fs =>
              simp only [mutatorSafePath, jsMember] at h
              obtain ⟨r', hr', hg'⟩ := ih (lookupField fs s) v h
              refine ⟨.obj (objUpsert fs s r'), ?_, ?_⟩
              · simp [updateDataAtPath, jsMember, spreadEntries, hr']
              · simp only [getAtPath]
                rw [lookupField_objUpsert_self]
                exact hg'
          | bool b =>
              simp only [mutatorSafePath, jsMember] at h
              obtain ⟨r', hr', hg'⟩ := ih .undef v h
              refine ⟨.obj (objUpsert [] s r'), ?_, ?_⟩
              · simp [updateDataAtPath, jsMember, spreadEntries, hr']
              · simp only [getAtPath]
                rw [lookupField_objUpsert_self]
                exact hg'
          | num m =>
              simp only [mutatorSafePath, jsMember] at h
              obtain ⟨r', hr', hg'⟩ := ih .undef v h
              refine ⟨.obj (objUpsert [] s r'), ?_, ?_⟩
              · simp [updateDataAtPath, jsMember, spreadEntries, hr']
              · simp only [getAtPath]
                rw [lookupField_objUpsert_self]
                exact hg'
          | str s' =>
              simp only [mutatorSafePath, jsMember] at h
              obtain ⟨r', hr', hg'⟩ := ih (lookupField (charEntries s') s) v h
              refine ⟨.obj (objUpsert (charEntries s') s r'), ?_, ?_⟩
              · simp [updateDataAtPath, jsMember, spreadEntries, hr']
              · simp only [getAtPath]
                rw [lookupField_objUpsert_self]
                exact hg'

end Json

namespace Json

/-- C2 — Mutator round-trip: for every root, every valid non-empty path `p`
into it (`validPathInto`), and every value, the mutator returns normally and
looking the path up in the result yields exactly the new value. -/
theorem C2_mutator_round_trip (root : Json) (p : List String) (v : Json)
    (h : validPathInto root p = true) :
    ∃ r, updateDataAtPath root p v = .ok r ∧ getAtPath r p = v :=
  roundtrip_of_safe p root v (safe_of_valid p root h)

theorem C2_mutator_round_trip_witness :
    ∃ r, updateDataAtPath
        (.obj [("a", .obj [("b", .obj [("c", .num 1), ("d", .num 2)])])])
        ["a", "b", "c"] (.num 99) = .ok r
      ∧ getAtPath r ["a", "b", "c"] = .num 99 :=
  C2_mutator_round_trip _ ["a", "b", "c"] (.num 99) rfl

/-- C3 (amended) — the mutator defines no `InvalidPathError`: an empty path
throws the generic `TypeError` of member access on `undefined`/`null`, and a
path that descends through a scalar is accepted without any error, the
scalar being replaced by a freshly created mapping. -/
theorem C3_no_invalid_path_error :
    (∀ (d v : Json), updateDataAtPath d [] v = .error .typeError)
    ∧ updateDataAtPath (.obj [("a", .num 5)]) ["a", "b"] (.num 7)
        = .ok (.obj [("a", .obj [("b", .num 7)])]) :=
  ⟨fun d _ => updateEmptyGo_eq d, rfl⟩

/-- C3 counterexample — the claim requires `InvalidPathError` for an
out-of-range sequence index, but the mutator accepts it without error and
extends the sequence. -/
theorem C3_counterexample :
    updateDataAtPath (.arr [.num 1]) ["5"] (.num 2)
      = .ok (.arr [.num 1, .undef, .undef, .undef, .undef, .num 2]) := rfl

/-- C9 — append-by-index: a final segment parsing to an index `n ≥ length`
is accepted without error; the returned sequence is a copy extended with
`undefined` holes whose element at `n` is the new value and whose length is
`n + 1`. -/
theorem C9_append_by_index (xs : List Json) (s : String) (n : Nat) (v : Json)
    (hp : parseSeg s = some (n : Int)) (hn : xs.length ≤ n) :
    updateDataAtPath (.arr xs) [s] v
      = .ok (.arr (xs ++ List.replicate (n - xs.length) Json.undef ++ [v]))
    ∧ (xs ++ List.replicate (n - xs.length) Json.undef ++ [v]).getD n .undef = v
    ∧ (xs ++ List.replicate (n - xs.length) Json.undef ++ [v]).length = n + 1 := by
  have ht : ((n : Int)).toNat = n := by omega
  refine ⟨?_, ?_, ?_⟩
  · simp only [updateDataAtPath, hp, jsArraySet]
    rw [if_neg (by omega), if_neg (by omega), ht]
  · have hx := getD_extend_self xs (n - xs.length) v
    rwa [show xs.length + (n - xs.length) = n by omega] at hx
  · simp only [List.length_append, List.length_replicate, List.length_cons,
      List.length_nil]
    omega

theorem C9_append_by_index_witness :
    updateDataAtPath (.arr [.num 1, .num 2]) ["5"] (.num 9)
      = .ok (.arr [.num 1, .num 2, .undef, .undef, .undef, .num 9])
    ∧ ([Json.num 1, .num 2, .undef, .undef, .undef, .num 9] : List Json).getD 5 Json.undef
        = .num 9
    ∧ ([Json.num 1, .num 2, .undef, .undef, .undef, .num 9] : List Json).length = 5 + 1 :=
  C9_append_by_index [.num 1, .num 2] "5" 5 (.num 9) rfl (by decide)

/-- C10 (amended) — totality and round-trip of the mutator on every
descent-safe path: paths that never meet `null`/`undefined` with two or more
segments remaining and whose sequence steps parse to non-negative indices.
Absent keys and scalar intermediates are accepted: the non-container is
replaced through object spread by a freshly created mapping, and the edited
path reads back the new value. -/
theorem C10_mutator_totality_safe (root : Json) (p : List String) (v : Json)
    (h : mutatorSafePath root p = true) :
    ∃ r, updateDataAtPath root p v = .ok r ∧ getAtPath r p = v :=
  roundtrip_of_safe p root v h

theorem C10_mutator_totality_safe_witness :
    ∃ r, updateDataAtPath (.obj [("a", .num 5)]) ["a", "b", "c"] (.num 7) = .ok r
      ∧ getAtPath r ["a", "b", "c"] = .num 7 :=
  C10_mutator_totality_safe _ ["a", "b", "c"] (.num 7) rfl

/-- C10 counterexample — the claim as stated says the mutator never throws
on any non-empty path; descending through `null` with two segments remaining
throws a `TypeError`. -/
theorem C10_counterexample :
    (["a", "b", "c"] : List String) ≠ []
    ∧ updateDataAtPath (.obj [("a", .null)]) ["a", "b", "c"] (.num 1)
        = .error .typeError :=
  ⟨by simp, rfl⟩

end Json

namespace Json

/-- Two paths address disjoint subtrees of a root: after a common prefix of
segments resolving identically through containers, the next segments address
different children — different keys at a mapping, differently-parsed indices
at a sequence. -/
def addressesDisjoint (d : Json) : List String → List String → Bool
  | ps :: pr, qs :: qr =>
      (match d with
       | .obj fs =>
           if ps = qs then addressesDisjoint (lookupField fs ps) pr qr else true
       | .arr xs =>
           if parseSeg ps = parseSeg qs then
             addressesDisjoint (jsArrayGet xs (parseSeg ps)) pr qr
           else true
       | _ => false)
  | _, _ => false

/-- C1 (amended) — Path-scoped frame: when the mutator returns normally and
`q` addresses a subtree disjoint from the edited path `p`
(`addressesDisjoint`), looking `q` up in the result yields the same value as
in the original root.  (That the original root itself is left unmodified is
inherent in the embedding: `updateDataAtPath` is a pure function returning a
new value.) -/
theorem C1_frame_disjoint : ∀ (p q : List String) (root v r : Json),
    addressesDisjoint root p q = true →
    updateDataAtPath root p v = .ok r →
    getAtPath r q = getAtPath root q := by
  intro p
  induction p with
  | nil => intro q root v r hd _; cases q <;> simp [addressesDisjoint] at hd
  | cons ps pr ih =>
      intro q root v r hd hu
      cases q with
      | nil => simp [addressesDisjoint] at hd
      | cons qs qr =>
          cases root with
          | null => simp [addressesDisjoint] at hd
          | undef => simp [addressesDisjoint] at hd
          | bool b => simp [addressesDisjoint] at hd
          | num n => simp [addressesDisjoint] at hd
          | str s => simp [addressesDisjoint] at hd
          | obj fs =>
              simp only [addressesDisjoint] at hd
              by_cases hk : ps = qs
              · subst hk
                rw [if_pos rfl] at hd
                cases pr with
                | nil => cases qr <;> simp [addressesDisjoint] at hd
                | cons p2 pr' =>
                    rcases hi : updateDataAtPath (lookupField fs ps) (p2 :: pr') v
                      with e | r'
                    · simp only [updateDataAtPath, jsMember, spreadEntries] at hu
                      rw [hi] at hu
                      cases hu
                    · simp only [updateDataAtPath, jsMember, spreadEntries] at hu
                      rw [hi] at hu
                      injection hu with hr
                      subst hr
                      simp only [getAtPath]
                      rw [lookupField_objUpsert_self]
                      exact ih qr _ v r' hd hi
              · rw [if_neg hk] at hd
                cases pr with
                | nil =>
                    simp only [updateDataAtPath, spreadEntries] at hu
                    injection hu with hr
                    subst hr
                    simp only [getAtPath]
                    rw [lookupField_objUpsert_ne fs ps qs v (Ne.symm hk)]
                | cons p2 pr' =>
                    rcases hi : updateDataAtPath (lookupField fs ps) (p2 :: pr') v
                      with e | r'
                    · simp only [updateDataAtPath, jsMember, spreadEntries] at hu
                      rw [hi] at hu
                      cases hu
                    · simp only [updateDataAtPath, jsMember, spreadEntries] at hu
                      rw [hi] at hu
                      injection hu with hr
                      subst hr
                      simp only [getAtPath]
                      rw [lookupField_objUpsert_ne fs ps qs r' (Ne.symm hk)]
          | arr xs =>
              simp only [addressesDisjoint] at hd
              by_cases hpq : parseSeg ps = parseSeg qs
              · rw [if_pos hpq] at hd
                rcases hp : parseSeg ps with _ | n
                · rw [hp] at hd
                  cases pr <;> cases qr <;> simp [jsArrayGet, addressesDisjoint] at hd
                · rw [hp] at hd
                  by_cases hn : n < 0
                  · rw [show jsArrayGet xs (some n) = .undef from by
                      simp [jsArrayGet, hn]] at hd
                    cases pr <;> cases qr <;> simp [addressesDisjoint] at hd
                  · cases pr with
                    | nil => cases qr <;> simp [addressesDisjoint] at hd
                    | cons p2 pr' =>
                        rcases hi : updateDataAtPath (jsArrayGet xs (some n))
                            (p2 :: pr') v with e | r'
                        · simp only [updateDataAtPath] at hu
                          rw [hp, hi] at hu
                          cases hu
                        · simp only [updateDataAtPath] at hu
                          rw [hp, hi] at hu
                          injection hu with hr
                          subst hr
                          simp only [getAtPath]
                          rw [← hpq, hp]
                          rw [jsArrayGet_jsArraySet_self xs n r' (by omega)]
                          exact ih qr _ v r' hd hi
              · rw [if_neg hpq] at hd
                cases pr with
                | nil =>
                    simp only [updateDataAtPath] at hu
                    injection hu with hr
                    subst hr
                    simp only [getAtPath]
                    rw [jsArrayGet_jsArraySet_ne xs (parseSeg ps) (parseSeg qs) v hpq]
                | cons p2 pr' =>
                    rcases hi : updateDataAtPath (jsArrayGet xs (parseSeg ps))
                        (p2 :: pr') v with e | r'
                    · simp only [updateDataAtPath] at hu
                      rw [hi] at hu
                      cases hu
                    · simp only [updateDataAtPath] at hu
                      rw [hi] at hu
                      injection hu with hr
                      subst hr
                      simp only [getAtPath]
                      rw [jsArrayGet_jsArraySet_ne xs (parseSeg ps) (parseSeg qs) r' hpq]

theorem C1_frame_disjoint_witness :
    getAtPath (.obj [("a", .obj [("b", .obj [("c", .num 99), ("d", .num 2)])])])
        ["a", "b", "d"]
      = getAtPath (.obj [("a", .obj [("b", .obj [("c", .num 1), ("d", .num 2)])])])
        ["a", "b", "d"] :=
  C1_frame_disjoint ["a", "b", "c"] ["a", "b", "d"] _ (.num 99) _ rfl rfl

/-- C1 counterexample — the claim quantifies over every `q` that is neither
`p` nor an ancestor/descendant of `p` as a segment list; the segments `"1"`
and `"[1]"` are different, so `["[1]"]` is unrelated to `["1"]` by the
claim's reading, yet both parse to index 1 of a sequence, and the lookup of
`["[1]"]` changes across the update of `["1"]`. -/
theorem C1_counterexample :
    ¬ (["1"] : List String) <+: ["[1]"]
    ∧ ¬ (["[1]"] : List String) <+: ["1"]
    ∧ updateDataAtPath (.arr [.num 10, .num 20]) ["1"] (.num 99)
        = .ok (.arr [.num 10, .num 99])
    ∧ getAtPath (.arr [.num 10, .num 99]) ["[1]"] = .num 99
    ∧ getAtPath (.arr [.num 10, .num 20]) ["[1]"] = .num 20
    ∧ Json.num 99 ≠ Json.num 20 :=
  ⟨by decide, by decide, rfl, rfl, rfl, by simp⟩

end Json

namespace Json

/-- The Tree Walker root-row order in the words of the spec: the field
definitions' names, in their order, restricted to keys present in the data,
followed by every data key not named by any field definition, in the data's
encounter order. -/
def walkerRowOrderSpec (fields : List BuilderField)
    (data : List (String × Json)) : List String :=
  ((fields.map BuilderField.name).filter fun n => containsKey data n)
  ++ (data.map Prod.fst).filter fun k =>
      !((fields.map BuilderField.name).any fun n => n = k)

theorem any_name_eq (fields : List BuilderField) (k : String) :
    (fields.any fun f => f.name = k)
      = ((fields.map BuilderField.name).any fun n => n = k) := by
  induction fields with
  | nil => rfl
  | cons g gs ihg => simp [List.any_cons, ihg]

/-- C4 — Tree Walker ordering: the emitted root-level row keys are exactly
the spec's order — schema order for keys present in the data (absent keys
skipped), then unknown data keys trailing in their original order; on
fieldDefinitions `[a, b, c]` and data `{c:1, a:2, extra:3}` the order is
`[a, c, extra]`. -/
theorem C4_root_row_order :
    (∀ (fields : List BuilderField) (data : List (String × Json)),
      (rootRows fields data).map Prod.fst = walkerRowOrderSpec fields data)
    ∧ (rootRows
        [.mk "a" "text" false [], .mk "b" "text" false [], .mk "c" "text" false []]
        [("c", .num 1), ("a", .num 2), ("extra", .num 3)]).map Prod.fst
      = ["a", "c", "extra"] := by
  constructor
  · intro fields data
    rw [rootRows, walkerRowOrderSpec, List.map_append]
    congr 1
    · induction fields with
      | nil => rfl
      | cons f fsr ih =>
          simp only [List.filterMap_cons, List.map_cons, List.filter_cons]
          by_cases h : containsKey data f.name
          · simp [h, ih]
          · simp [h, ih]
    · induction data with
      | nil => rfl
      | cons kv rest ih =>
          obtain ⟨k, v1⟩ := kv
          simp only [List.filter_cons, List.map_cons]
          have hc := any_name_eq fields k
          by_cases h : (fields.any fun f => f.name = k)
          · rw [← hc]
            simp [h, ih]
          · rw [← hc]
            simp only [h]
            simp [ih]
  · rfl

end Json

namespace Json

/-- Is the value a non-null, non-array mapping? -/
def isMapping : Json → Bool
  | .obj _ => true
  | _ => false

theorem one_le_sizeOf (d : Json) : 1 ≤ sizeOf d := by
  cases d <;> simp

theorem mem_compareKeys {row : DiffResult} {l r : Json} {p : String}
    {ks : List String} :
    row ∈ compareKeys l r p ks ↔ ∃ k ∈ ks, row ∈ diffKey l r p k := by
  induction ks with
  | nil => simp [compareKeys]
  | cons k ks ih => simp [compareKeys, ih]

/-- No emitted row ever carries a mapping on both sides: mapping pairs are
always recursed into, never reported as terminal rows. -/
theorem no_mapping_pair_rows : ∀ (N : Nat) (l r : Json) (p : String),
    sizeOf l ≤ N → ∀ row ∈ compareObjects l r p,
      ¬(isMapping row.leftValue = true ∧ isMapping row.rightValue = true) := by
  intro N
  induction N with
  | zero =>
      intro l r p hN
      have := one_le_sizeOf l
      omega
  | succ N ihN =>
      intro l r p hN row hrow
      rw [compareObjects, mem_compareKeys] at hrow
      obtain ⟨k, _, hk⟩ := hrow
      rw [diffKey] at hk
      split at hk
      · simp only [List.mem_singleton] at hk
        subst hk
        simp [isMapping]
      · split at hk
        · simp only [List.mem_singleton] at hk
          subst hk
          simp [isMapping]
        · split at hk
          · split at hk
            · rename_i lf rf heq1 heq2
              refine ihN _ _ _ ?_ row hk
              have := sizeOf_jsGetKey_lt_of_obj l k lf heq1
              omega
            · split at hk <;>
                (simp only [List.mem_singleton] at hk; subst hk; simp [isMapping])
            · rename_i hnotboth heq1 heq2
              split at hk <;>
                (simp only [List.mem_singleton] at hk
                 subst hk
                 rintro ⟨hml, hmr⟩
                 rcases hgl : jsGetKey l k with _ | _ | b | n | s | xs | lf <;>
                   rw [hgl] at hml <;>
                   simp only [isMapping, Bool.false_eq_true] at hml
                 rcases hgr : jsGetKey r k with _ | _ | b2 | n2 | s2 | xs2 | rf <;>
                   rw [hgr] at hmr <;>
                   simp only [isMapping, Bool.false_eq_true] at hmr
                 exact heq1 lf rf hgl hgr)
          · simp at hk

/-- C5 — Differ array atomicity: when both sides of a key hold sequences,
the key's entire contribution is one row at that path — `modified` exactly
when the serializations differ (order-sensitive), `equal` otherwise — and no
per-element rows; `diff({tags:["a","b"]}, {tags:["b","a"]})` yields the one
`modified` row at path `tags`. -/
theorem C5_array_atomicity :
    (∀ (l r : Json) (p k : String) (lx rx : List Json),
      jsGetKey l k = .arr lx → jsGetKey r k = .arr rx →
      (truthy l && jsHasOwnKey l k) = true →
      (truthy r && jsHasOwnKey r k) = true →
      diffKey l r p k
        = [⟨joinPath p k, .arr lx, .arr rx,
            if jsonStringify (.arr lx) ≠ jsonStringify (.arr rx)
            then .modified else .equal⟩])
    ∧ jsonDiff (.obj [("tags", .arr [.str "a", .str "b"])])
        (.obj [("tags", .arr [.str "b", .str "a"])])
      = [⟨"tags", .arr [.str "a", .str "b"], .arr [.str "b", .str "a"],
          .modified⟩] := by
  constructor
  · intro l r p k lx rx h1 h2 hl hr
    rw [diffKey, hl, hr]
    rw [if_neg (by decide), if_neg (by decide), if_pos (by decide)]
    split <;> simp_all
    split <;> rfl
  · simp [jsonDiff, compareObjects, compareKeys, diffKey, unionKeys, jsObjectKeys,
      dedupKeysGo, truthy, jsHasOwnKey, containsKey, jsGetKey, lookupField,
      joinPath, jsonStringify, stringifyElemParts, quoteJson, escapeJsonChar]
    all_goals decide

theorem C5_array_atomicity_witness :
    diffKey (.obj [("tags", .arr [.str "a", .str "b"])])
        (.obj [("tags", .arr [.str "b", .str "a"])]) "" "tags"
      = [⟨joinPath "" "tags", .arr [.str "a", .str "b"], .arr [.str "b", .str "a"],
          if jsonStringify (.arr [.str "a", .str "b"])
              ≠ jsonStringify (.arr [.str "b", .str "a"])
          then .modified else .equal⟩] :=
  C5_array_atomicity.1 _ _ "" "tags" [.str "a", .str "b"] [.str "b", .str "a"]
    rfl rfl rfl rfl

/-- C7 — Differ container transparency: when both sides of a key hold
non-null non-array mappings, the key's entire contribution is the recursive
comparison — no row for the container itself — and across the whole differ
no emitted row carries mappings on both sides; terminal rows arise only from
added/removed keys, sequences, scalars, nulls, and type mismatches. -/
theorem C7_container_transparency :
    (∀ (l r : Json) (p k : String) (lf rf : List (String × Json)),
      jsGetKey l k = .obj lf → jsGetKey r k = .obj rf →
      (truthy l && jsHasOwnKey l k) = true →
      (truthy r && jsHasOwnKey r k) = true →
      diffKey l r p k = compareObjects (.obj lf) (.obj rf) (joinPath p k))
    ∧ (∀ (l r : Json) (p : String), ∀ row ∈ compareObjects l r p,
      ¬(isMapping row.leftValue = true ∧ isMapping row.rightValue = true)) := by
  constructor
  · intro l r p k lf rf h1 h2 hl hr
    rw [diffKey, hl, hr]
    rw [if_neg (by decide), if_neg (by decide), if_pos (by decide)]
    split <;> simp_all
  · intro l r p row hrow
    exact no_mapping_pair_rows (sizeOf l) l r p le_rfl row hrow

theorem C7_container_transparency_witness :
    diffKey (.obj [("x", .obj [("y", .num 1)])])
        (.obj [("x", .obj [("y", .num 2)])]) "" "x"
      = compareObjects (.obj [("y", .num 1)]) (.obj [("y", .num 2)])
          (joinPath "" "x") :=
  C7_container_transparency.1 _ _ "" "x" [("y", .num 1)] [("y", .num 2)]
    rfl rfl rfl rfl

end Json

namespace Json

theorem dedupKeysGo_congr : ∀ (xs s1 s2 : List String),
    (∀ k, s1.contains k = s2.contains k) →
    dedupKeysGo s1 xs = dedupKeysGo s2 xs := by
  intro xs
  induction xs with
  | nil => intro s1 s2 _; rfl
  | cons k rest ih =>
      intro s1 s2 h
      rw [dedupKeysGo, dedupKeysGo, h k]
      by_cases hk : s2.contains k = true
      · simp only [hk, if_pos rfl]
        exact ih s1 s2 h
      · simp only [hk, Bool.false_eq_true, if_false]
        congr 1
        refine ih (k :: s1) (k :: s2) fun k' => ?_
        show (k' == k || s1.contains k') = (k' == k || s2.contains k')
        rw [h k']

theorem dedupKeysGo_append_nodup : ∀ (lk : List String) (seen rk : List String),
    lk.Nodup → (∀ k ∈ lk, seen.contains k = false) →
    dedupKeysGo seen (lk ++ rk) = lk ++ dedupKeysGo (lk.reverse ++ seen) rk := by
  intro lk
  induction lk with
  | nil => intro seen rk _ _; simp
  | cons k lk' ih =>
      intro seen rk hnd hdis
      rw [List.cons_append, dedupKeysGo]
      rw [hdis k (by simp)]
      simp only [Bool.false_eq_true, if_false]
      rw [List.cons_append]
      congr 1
      rw [ih (k :: seen) rk hnd.of_cons ?_]
      · congr 1
        refine dedupKeysGo_congr rk _ _ fun k' => ?_
        have hmm : (k' ∈ lk'.reverse ++ k :: seen)
            ↔ (k' ∈ (k :: lk').reverse ++ seen) := by
          simp [List.mem_append, List.mem_reverse, List.mem_cons]
        simp [hmm]
      · intro k' hk'
        have h1 : k' ∉ seen := by
          have := hdis k' (by simp [hk'])
          simpa using this
        have h2 : k' ≠ k := by
          intro he
          subst he
          exact (List.nodup_cons.mp hnd).1 hk'
        show (k' == k || seen.contains k') = false
        simp [h1, h2]

theorem dedupKeysGo_filter_nodup : ∀ (rk seen : List String), rk.Nodup →
    dedupKeysGo seen rk = rk.filter fun k => !seen.contains k := by
  intro rk
  induction rk with
  | nil => intro seen _; rfl
  | cons k rk' ih =>
      intro seen hnd
      rw [dedupKeysGo, List.filter_cons]
      by_cases hk : seen.contains k = true
      · simp only [hk, if_pos rfl, Bool.not_true, Bool.false_eq_true, if_false]
        exact ih seen hnd.of_cons
      · have hkf : seen.contains k = false := by simpa using hk
        simp only [hkf, Bool.false_eq_true, if_false, Bool.not_false, if_true]
        congr 1
        rw [ih (k :: seen) hnd.of_cons]
        refine List.filter_congr fun k' hk' => ?_
        have h2 : k' ≠ k := fun he => (List.nodup_cons.mp hnd).1 (he ▸ hk')
        show (!(k' == k || seen.contains k')) = (!seen.contains k')
        simp [h2]

/-- With unique keys on both sides (true of every JavaScript object), the
`Set`-union iteration order is the left mapping's keys followed by the right
mapping's remaining keys. -/
theorem unionKeys_obj_nodup (lf rf : List (String × Json))
    (hl : (lf.map Prod.fst).Nodup) (hr : (rf.map Prod.fst).Nodup) :
    unionKeys (.obj lf) (.obj rf)
      = (lf.map Prod.fst)
        ++ (rf.map Prod.fst).filter fun k => !(lf.map Prod.fst).contains k := by
  rw [unionKeys]
  simp only [jsObjectKeys]
  rw [dedupKeysGo_append_nodup _ [] _ hl (fun k _ => rfl)]
  congr 1
  rw [dedupKeysGo_filter_nodup _ _ hr]
  refine List.filter_congr fun k' hk' => ?_
  have hmm : (k' ∈ (lf.map Prod.fst).reverse ++ ([] : List String))
      ↔ (k' ∈ lf.map Prod.fst) := by
    simp [List.mem_append, List.mem_reverse]
  simp [hmm]

theorem compareKeys_eq_flatMap (l r : Json) (p : String) :
    ∀ ks, compareKeys l r p ks = ks.flatMap (diffKey l r p) := by
  intro ks
  induction ks with
  | nil => simp [compareKeys]
  | cons k ks ih => simp [compareKeys, ih]

/-- C8 — Differ determinism and key order: the differ is a pure function of
its two inputs (repeated calls are literally the same value), and at each
level the rows are the concatenation, over the union of keys in first-seen
order — all of the left mapping's keys in their order, then the right
mapping's remaining keys in their order — of the per-key rows; two mappings
with the same keys and values in different insertion order produce only
`equal` rows. -/
theorem C8_determinism_key_order :
    (∀ (lf rf : List (String × Json)) (p : String),
      (lf.map Prod.fst).Nodup → (rf.map Prod.fst).Nodup →
      compareObjects (.obj lf) (.obj rf) p
        = (((lf.map Prod.fst)
            ++ (rf.map Prod.fst).filter fun k => !(lf.map Prod.fst).contains k)).flatMap
            (diffKey (.obj lf) (.obj rf) p))
    ∧ jsonDiff (.obj [("a", .num 1), ("b", .num 2)])
        (.obj [("b", .num 2), ("a", .num 1)])
      = [⟨"a", .num 1, .num 1, .equal⟩, ⟨"b", .num 2, .num 2, .equal⟩] := by
  constructor
  · intro lf rf p hl hr
    rw [compareObjects, compareKeys_eq_flatMap, unionKeys_obj_nodup lf rf hl hr]
  · simp [jsonDiff, compareObjects, compareKeys, diffKey, unionKeys, jsObjectKeys,
      dedupKeysGo, truthy, jsHasOwnKey, containsKey, jsGetKey, lookupField,
      joinPath, jsonStringify]

theorem C8_determinism_key_order_witness :
    compareObjects (.obj [("a", .num 1)]) (.obj [("b", .num 2)]) ""
      = ((([("a", Json.num 1)].map Prod.fst)
          ++ ([("b", Json.num 2)].map Prod.fst).filter
              fun k => !([("a", Json.num 1)].map Prod.fst).contains k)).flatMap
          (diffKey (.obj [("a", .num 1)]) (.obj [("b", .num 2)]) "") :=
  C8_determinism_key_order.1 [("a", .num 1)] [("b", .num 2)] ""
    (by decide) (by decide)

end Json

namespace Json

/-- A row of the given kind is reported at path `P`. -/
def hasRowOfType (rows : List DiffResult) (P : String) (t : DiffType) : Prop :=
  ∃ row ∈ rows, row.path = P ∧ row.type = t

theorem mem_dedupKeysGo : ∀ (xs seen : List String) (a : String),
    a ∈ dedupKeysGo seen xs ↔ a ∈ xs ∧ seen.contains a = false := by
  intro xs
  induction xs with
  | nil => intro seen a; simp [dedupKeysGo]
  | cons k rest ih =>
      intro seen a
      rw [dedupKeysGo]
      by_cases hk : seen.contains k = true
      · rw [hk, if_pos rfl, ih]
        constructor
        · rintro ⟨ha, hs⟩
          exact ⟨List.mem_cons_of_mem _ ha, hs⟩
        · rintro ⟨ha, hs⟩
          rcases List.mem_cons.mp ha with h | h
          · subst h
            rw [hk] at hs
            cases hs
          · exact ⟨h, hs⟩
      · have hkf : seen.contains k = false := by simpa using hk
        rw [hkf, if_neg (by simp), List.mem_cons, ih, List.mem_cons]
        constructor
        · rintro (h | ⟨ha, hs⟩)
          · subst h
            exact ⟨Or.inl rfl, hkf⟩
          · refine ⟨Or.inr ha, ?_⟩
            have hx : (a == k || seen.contains a) = false := hs
            simp only [Bool.or_eq_false_iff] at hx
            exact hx.2
        · rintro ⟨h | h, hs⟩
          · subst h
            exact Or.inl rfl
          · by_cases hak : a = k
            · subst hak
              exact Or.inl rfl
            · refine Or.inr ⟨h, ?_⟩
              have hs' : a ∉ seen := by simpa using hs
              show (a == k || seen.contains a) = false
              simp [hak, hs']

theorem mem_unionKeys (l r : Json) (a : String) :
    a ∈ unionKeys l r ↔ a ∈ jsObjectKeys l ∨ a ∈ jsObjectKeys r := by
  rw [unionKeys, mem_dedupKeysGo]
  simp [List.mem_append]

theorem hasRow_compareObjects {l r : Json} {p P : String} {t : DiffType} :
    hasRowOfType (compareObjects l r p) P t
      ↔ ∃ k ∈ unionKeys l r, hasRowOfType (diffKey l r p k) P t := by
  rw [compareObjects]
  simp only [hasRowOfType, mem_compareKeys]
  constructor
  · rintro ⟨row, ⟨k, hk, hrow⟩, hprop⟩
    exact ⟨k, hk, row, hrow, hprop⟩
  · rintro ⟨k, hk, row, hrow, hprop⟩
    exact ⟨row, ⟨k, hk, hrow⟩, hprop⟩

theorem diffKey_eq_added (l r : Json) (p k : String)
    (hl : (truthy l && jsHasOwnKey l k) = false)
    (hr : (truthy r && jsHasOwnKey r k) = true) :
    diffKey l r p k = [⟨joinPath p k, .undef, jsGetKey r k, .added⟩] := by
  rw [diffKey, hl, hr]
  rw [if_pos (by decide)]

theorem diffKey_eq_removed (l r : Json) (p k : String)
    (hl : (truthy l && jsHasOwnKey l k) = true)
    (hr : (truthy r && jsHasOwnKey r k) = false) :
    diffKey l r p k = [⟨joinPath p k, jsGetKey l k, .undef, .removed⟩] := by
  rw [diffKey, hl, hr]
  rw [if_neg (by decide), if_pos (by decide)]

theorem diffKey_eq_nil (l r : Json) (p k : String)
    (hl : (truthy l && jsHasOwnKey l k) = false)
    (hr : (truthy r && jsHasOwnKey r k) = false) :
    diffKey l r p k = [] := by
  rw [diffKey, hl, hr]
  rw [if_neg (by decide), if_neg (by decide), if_neg (by decide)]

theorem diffKey_eq_recurse (l r : Json) (p k : String)
    (lf rf : List (String × Json))
    (h1 : jsGetKey l k = .obj lf) (h2 : jsGetKey r k = .obj rf)
    (hl : (truthy l && jsHasOwnKey l k) = true)
    (hr : (truthy r && jsHasOwnKey r k) = true) :
    diffKey l r p k = compareObjects (.obj lf) (.obj rf) (joinPath p k) := by
  rw [diffKey, hl, hr]
  rw [if_neg (by decide), if_neg (by decide), if_pos (by decide)]
  split <;> simp_all

theorem diffKey_eq_row (l r : Json) (p k : String)
    (hl : (truthy l && jsHasOwnKey l k) = true)
    (hr : (truthy r && jsHasOwnKey r k) = true)
    (hno : ¬(isMapping (jsGetKey l k) = true ∧ isMapping (jsGetKey r k) = true)) :
    diffKey l r p k
      = [⟨joinPath p k, jsGetKey l k, jsGetKey r k,
          if jsonStringify (jsGetKey l k) ≠ jsonStringify (jsGetKey r k)
          then .modified else .equal⟩] := by
  rw [diffKey, hl, hr]
  rw [if_neg (by decide), if_neg (by decide), if_pos (by decide)]
  split
  · rename_i lf rf heq1 heq2
    exact absurd ⟨by rw [heq1]; rfl, by rw [heq2]; rfl⟩ hno
  · rename_i lx rx heq1 heq2
    rw [heq1, heq2]
    split <;> rfl
  · split <;> rfl

theorem hasRow_single_ite (pp : String) (lv rv : Json) (P : String)
    (t : DiffType) (c : Prop) [Decidable c]
    (ht : t = .added ∨ t = .removed) :
    ¬ hasRowOfType [⟨pp, lv, rv, if c then .modified else .equal⟩] P t := by
  rintro ⟨row, hrow, hP, htt⟩
  simp only [List.mem_singleton] at hrow
  subst hrow
  rcases ht with h | h <;> subst h <;> simp at htt <;> split at htt <;> cases htt

end Json

namespace Json

theorem compareObjects_sym : ∀ (N : Nat) (l r : Json), sizeOf l + sizeOf r ≤ N →
    ∀ (p P : String),
    (hasRowOfType (compareObjects l r p) P .added
      ↔ hasRowOfType (compareObjects r l p) P .removed)
    ∧ (hasRowOfType (compareObjects l r p) P .removed
      ↔ hasRowOfType (compareObjects r l p) P .added) := by
  intro N
  induction N with
  | zero =>
      intro l r hN
      have := one_le_sizeOf l
      have := one_le_sizeOf r
      omega
  | succ N ihN =>
      intro l r hN p P
      have perk : ∀ k,
          (hasRowOfType (diffKey l r p k) P .added
            ↔ hasRowOfType (diffKey r l p k) P .removed)
          ∧ (hasRowOfType (diffKey l r p k) P .removed
            ↔ hasRowOfType (diffKey r l p k) P .added) := by
        intro k
        by_cases hl : (truthy l && jsHasOwnKey l k) = true
        · by_cases hr : (truthy r && jsHasOwnKey r k) = true
          · by_cases hobj : isMapping (jsGetKey l k) = true
                ∧ isMapping (jsGetKey r k) = true
            · obtain ⟨hm1, hm2⟩ := hobj
              rcases hv1 : jsGetKey l k with _|_|b1|n1|s1|x1|f1 <;>
                rw [hv1] at hm1 <;>
                simp only [isMapping, Bool.false_eq_true] at hm1
              rcases hv2 : jsGetKey r k with _|_|b2|n2|s2|x2|f2 <;>
                rw [hv2] at hm2 <;>
                simp only [isMapping, Bool.false_eq_true] at hm2
              rw [diffKey_eq_recurse l r p k f1 f2 hv1 hv2 hl hr,
                  diffKey_eq_recurse r l p k f2 f1 hv2 hv1 hr hl]
              refine ihN (.obj f1) (.obj f2) ?_ (joinPath p k) P
              have g1 := sizeOf_jsGetKey_lt_of_obj l k f1 hv1
              have g2 := sizeOf_jsGetKey_lt_of_obj r k f2 hv2
              omega
            · have hobj' : ¬(isMapping (jsGetKey r k) = true
                  ∧ isMapping (jsGetKey l k) = true) := by tauto
              rw [diffKey_eq_row l r p k hl hr hobj,
                  diffKey_eq_row r l p k hr hl hobj']
              constructor
              · constructor
                · intro hx
                  exact absurd hx (hasRow_single_ite _ _ _ _ _ _ (Or.inl rfl))
                · intro hx
                  exact absurd hx (hasRow_single_ite _ _ _ _ _ _ (Or.inr rfl))
              · constructor
                · intro hx
                  exact absurd hx (hasRow_single_ite _ _ _ _ _ _ (Or.inr rfl))
                · intro hx
                  exact absurd hx (hasRow_single_ite _ _ _ _ _ _ (Or.inl rfl))
          · have hrf : (truthy r && jsHasOwnKey r k) = false := by simpa using hr
            rw [diffKey_eq_removed l r p k hl hrf, diffKey_eq_added r l p k hrf hl]
            constructor
            · constructor
              · rintro ⟨row, hrow, hP, ht⟩
                simp only [List.mem_singleton] at hrow
                subst hrow
                cases ht
              · rintro ⟨row, hrow, hP, ht⟩
                simp only [List.mem_singleton] at hrow
                subst hrow
                cases ht
            · constructor
              · rintro ⟨row, hrow, hP, ht⟩
                simp only [List.mem_singleton] at hrow
                subst hrow
                exact ⟨_, List.mem_singleton_self _, hP, rfl⟩
              · rintro ⟨row, hrow, hP, ht⟩
                simp only [List.mem_singleton] at hrow
                subst hrow
                exact ⟨_, List.mem_singleton_self _, hP, rfl⟩
        · by_cases hr : (truthy r && jsHasOwnKey r k) = true
          · have hlf : (truthy l && jsHasOwnKey l k) = false := by simpa using hl
            rw [diffKey_eq_added l r p k hlf hr, diffKey_eq_removed r l p k hr hlf]
            constructor
            · constructor
              · rintro ⟨row, hrow, hP, ht⟩
                simp only [List.mem_singleton] at hrow
                subst hrow
                exact ⟨_, List.mem_singleton_self _, hP, rfl⟩
              · rintro ⟨row, hrow, hP, ht⟩
                simp only [List.mem_singleton] at hrow
                subst hrow
                exact ⟨_, List.mem_singleton_self _, hP, rfl⟩
            · constructor
              · rintro ⟨row, hrow, hP, ht⟩
                simp only [List.mem_singleton] at hrow
                subst hrow
                cases ht
              · rintro ⟨row, hrow, hP, ht⟩
                simp only [List.mem_singleton] at hrow
                subst hrow
                cases ht
          · have hlf : (truthy l && jsHasOwnKey l k) = false := by simpa using hl
            have hrf : (truthy r && jsHasOwnKey r k) = false := by simpa using hr
            rw [diffKey_eq_nil l r p k hlf hrf, diffKey_eq_nil r l p k hrf hlf]
            simp [hasRowOfType]
      have hmem : ∀ k, k ∈ unionKeys l r ↔ k ∈ unionKeys r l := by
        intro k
        rw [mem_unionKeys, mem_unionKeys]
        tauto
      constructor
      · rw [hasRow_compareObjects, hasRow_compareObjects]
        constructor
        · rintro ⟨k, hk, hx⟩
          exact ⟨k, (hmem k).mp hk, ((perk k).1).mp hx⟩
        · rintro ⟨k, hk, hx⟩
          exact ⟨k, (hmem k).mpr hk, ((perk k).1).mpr hx⟩
      · rw [hasRow_compareObjects, hasRow_compareObjects]
        constructor
        · rintro ⟨k, hk, hx⟩
          exact ⟨k, (hmem k).mp hk, ((perk k).2).mp hx⟩
        · rintro ⟨k, hk, hx⟩
          exact ⟨k, (hmem k).mpr hk, ((perk k).2).mpr hx⟩

end Json

namespace Json

/-- C6 — Differ added/removed symmetry: for every pair of mappings and every
path string, `diff(left, right)` reports an `added` row at that path exactly
when `diff(right, left)` reports a `removed` row there, and vice versa. -/
theorem C6_added_removed_symmetry (lf rf : List (String × Json)) (P : String) :
    (hasRowOfType (jsonDiff (.obj lf) (.obj rf)) P .added
      ↔ hasRowOfType (jsonDiff (.obj rf) (.obj lf)) P .removed)
    ∧ (hasRowOfType (jsonDiff (.obj lf) (.obj rf)) P .removed
      ↔ hasRowOfType (jsonDiff (.obj rf) (.obj lf)) P .added) :=
  compareObjects_sym (sizeOf (Json.obj lf) + sizeOf (Json.obj rf)) _ _ le_rfl "" P

end Json
